import Mathlib

/-!
Verification of the core of svg-present (src/svg_present/__init__.py).

Strings manipulated by the style-map component are modelled as `List Char`
(`Str`), so that Python's `str.split`, `str.strip` and dict operations can be
embedded as structurally recursive Lean functions.  Documents and layer trees
are modelled as mutually inductive rose trees so that every operation is
structurally recursive and evaluates inside the kernel.
-/

namespace SvgPresent

abbrev Str := List Char

/-! Python's default `str.strip` character class (modulo exotic unicode). -/
def isSpaceChar (c : Char) : Bool := c.isWhitespace

/-- `part.strip()`: drop whitespace from both ends. -/
def trimChars (l : Str) : Str :=
  ((l.dropWhile isSpaceChar).reverse.dropWhile isSpaceChar).reverse

/-- Prepend a character to the first part of a split result. -/
def consHead (c : Char) : List Str → List Str
  | [] => [[c]]
  | p :: ps => (c :: p) :: ps

/-- Python's `s.split(sep)` for a one-character separator: splits on every
occurrence and keeps empty parts. -/
def splitOnChar (sep : Char) : Str → List Str
  | [] => [[]]
  | c :: cs =>
    if c = sep then [] :: splitOnChar sep cs
    else consHead c (splitOnChar sep cs)

/-- Python's `result[key] = value` on an insertion-ordered dict modelled as an
association list: an existing key is overwritten in place, a new key is
appended at the end. -/
def dictInsert : List (Str × Str) → Str → Str → List (Str × Str)
  | [], k, v => [(k, v)]
  | (k0, v0) :: rest, k, v =>
    if k0 = k then (k, v) :: rest else (k0, v0) :: dictInsert rest k v

/-- One iteration of the loop body of `css_to_dict`:
`key, value = [part.strip() for part in entry.split(":")]`.
The unpacking raises (here: `none`) unless the split has exactly two parts. -/
def parseEntry (entry : Str) : Option (Str × Str) :=
  match (splitOnChar ':' entry).map trimChars with
  | [k, v] => some (k, v)
  | _ => none

/-- `css_to_dict` from the source: empty string gives the empty dict, otherwise
split on `;` and accumulate `key, value` pairs, failing (Python `ValueError`)
on any segment that does not split on `:` into exactly two parts. -/
def css_to_dict (css : Str) : Option (List (Str × Str)) :=
  if css = [] then some [] else
    (splitOnChar ';' css).foldlM
      (fun acc entry => (parseEntry entry).map (fun kv => dictInsert acc kv.1 kv.2)) []

/-- Python's `sep.join`. -/
def joinWith (sep : Str) : List Str → Str
  | [] => []
  | [x] => x
  | x :: y :: xs => x ++ sep ++ joinWith sep (y :: xs)

/-- The f-string `f"{key}: {value}"` of `dict_to_css`. -/
def entryStr (kv : Str × Str) : Str := kv.1 ++ ':' :: ' ' :: kv.2

/-- `dict_to_css` from the source: join `"key: value"` pairs with `"; "`. -/
def dict_to_css (d : List (Str × Str)) : Str :=
  joinWith [';', ' '] (d.map entryStr)

/-- Python's `d1.update(d2)`: existing keys are overwritten in place, new keys
appended in `d2` order. -/
def dictUpdate (d1 d2 : List (Str × Str)) : List (Str × Str) :=
  d2.foldl (fun acc kv => dictInsert acc kv.1 kv.2) d1

/-- Lines 252-259 of the source: the style attribute given to the inlined copy
of a `use` reference target, `dict_to_css` of the reference's style updated by
the target's style. -/
def mergeStyles (useCss targetCss : Str) : Option Str := do
  let u ← css_to_dict useCss
  let t ← css_to_dict targetCss
  pure (dict_to_css (dictUpdate u t))

/-! ### Basic facts about the splitter -/

theorem splitOnChar_nil (sep : Char) : splitOnChar sep ([] : Str) = [[]] := rfl

theorem splitOnChar_cons_sep (sep : Char) (l : Str) :
    splitOnChar sep (sep :: l) = [] :: splitOnChar sep l := by
  simp [splitOnChar]

theorem splitOnChar_cons_ne {sep c : Char} (h : ¬c = sep) (l : Str) :
    splitOnChar sep (c :: l) = consHead c (splitOnChar sep l) := by
  simp [splitOnChar, h]

theorem consHead_cons (c : Char) (p : Str) (ps : List Str) :
    consHead c (p :: ps) = (c :: p) :: ps := rfl

theorem splitOnChar_ne_nil (sep : Char) : ∀ l : Str, splitOnChar sep l ≠ []
  | [] => by simp [splitOnChar]
  | c :: cs => by
    by_cases hc : c = sep
    · subst hc; rw [splitOnChar_cons_sep]; simp
    · rw [splitOnChar_cons_ne hc]
      match h : splitOnChar sep cs with
      | [] => exact absurd h (splitOnChar_ne_nil sep cs)
      | p :: ps => simp [consHead]

theorem splitOnChar_of_not_mem {sep : Char} : ∀ {l : Str}, sep ∉ l → splitOnChar sep l = [l]
  | [], _ => rfl
  | c :: cs, h => by
    have hc : ¬c = sep := fun he => h (by simp [he])
    have hcs : sep ∉ cs := fun hm => h (List.mem_cons_of_mem _ hm)
    rw [splitOnChar_cons_ne hc, splitOnChar_of_not_mem hcs, consHead_cons]

theorem splitOnChar_append {sep : Char} :
    ∀ {a : Str} (rest : Str), sep ∉ a →
      splitOnChar sep (a ++ sep :: rest) = a :: splitOnChar sep rest
  | [], rest, _ => by simp [splitOnChar]
  | c :: a, rest, h => by
    have hc : ¬c = sep := fun he => h (by simp [he])
    have ha : sep ∉ a := fun hm => h (List.mem_cons_of_mem _ hm)
    calc splitOnChar sep ((c :: a) ++ sep :: rest)
        = consHead c (splitOnChar sep (a ++ sep :: rest)) := splitOnChar_cons_ne hc _
      _ = consHead c (a :: splitOnChar sep rest) := by rw [splitOnChar_append rest ha]
      _ = (c :: a) :: splitOnChar sep rest := rfl

theorem mem_splitOnChar_not_mem {sep : Char} :
    ∀ {l : Str} {part : Str}, part ∈ splitOnChar sep l → sep ∉ part
  | [], part, h => by
    simp [splitOnChar] at h
    simp [h]
  | c :: cs, part, h => by
    by_cases hc : c = sep
    · subst hc
      rw [splitOnChar_cons_sep] at h
      rcases List.mem_cons.mp h with h | h
      · simp [h]
      · exact mem_splitOnChar_not_mem h
    · rw [splitOnChar_cons_ne hc] at h
      match hs : splitOnChar sep cs with
      | [] => exact absurd hs (splitOnChar_ne_nil sep cs)
      | p :: ps =>
        rw [hs, consHead_cons] at h
        have hp : sep ∉ p :=
          mem_splitOnChar_not_mem (l := cs) (by rw [hs]; exact List.mem_cons_self _ _)
        rcases List.mem_cons.mp h with h | h
        · subst h
          intro hm
          rcases List.mem_cons.mp hm with h | h
          · exact hc h.symm
          · exact hp h
        · exact mem_splitOnChar_not_mem (l := cs)
            (by rw [hs]; exact List.mem_cons_of_mem _ h)

theorem mem_of_mem_splitOnChar {sep : Char} :
    ∀ {l : Str} {part : Str}, part ∈ splitOnChar sep l → ∀ {x}, x ∈ part → x ∈ l
  | [], part, h, x, hx => by
    simp [splitOnChar] at h
    subst h
    simp at hx
  | c :: cs, part, h, x, hx => by
    by_cases hc : c = sep
    · subst hc
      rw [splitOnChar_cons_sep] at h
      rcases List.mem_cons.mp h with h | h
      · subst h; simp at hx
      · exact List.mem_cons_of_mem _ (mem_of_mem_splitOnChar h hx)
    · rw [splitOnChar_cons_ne hc] at h
      match hs : splitOnChar sep cs with
      | [] => exact absurd hs (splitOnChar_ne_nil sep cs)
      | p :: ps =>
        rw [hs, consHead_cons] at h
        rcases List.mem_cons.mp h with h | h
        · subst h
          rcases List.mem_cons.mp hx with h | h
          · simp [h]
          · exact List.mem_cons_of_mem _
              (mem_of_mem_splitOnChar (l := cs)
                (by rw [hs]; exact List.mem_cons_self _ _) h)
        · exact List.mem_cons_of_mem _
            (mem_of_mem_splitOnChar (l := cs)
              (by rw [hs]; exact List.mem_cons_of_mem _ h) hx)

/-! ### C3: target style wins over reference style on merge -/

/-- C3: for every document whose symbolic reference carries a style parsing to
`{a: v2, b: v3}` and whose link target carries a style parsing to `{a: v1}`,
resolution produces the serialization of `{a: v1, b: v3}`: the target's value
wins on the colliding key, the reference-only key survives, and the reference's
key order is preserved. -/
theorem merge_target_wins (useCss targetCss a b v1 v2 v3 : Str)
    (hu : css_to_dict useCss = some [(a, v2), (b, v3)])
    (ht : css_to_dict targetCss = some [(a, v1)]) :
    mergeStyles useCss targetCss = some (dict_to_css [(a, v1), (b, v3)]) := by
  simp [mergeStyles, hu, ht, dictUpdate, dictInsert]

/-- C3 witness: the spec's own example, reference style `A: 2; B: 3` and target
style `A: 1`, merges to `A: 1; B: 3`. -/
theorem merge_target_wins_witness :
    css_to_dict ("A: 2; B: 3".toList) = some [("A".toList, "2".toList), ("B".toList, "3".toList)] ∧
    css_to_dict ("A: 1".toList) = some [("A".toList, "1".toList)] ∧
    mergeStyles ("A: 2; B: 3".toList) ("A: 1".toList) =
      some (dict_to_css [("A".toList, "1".toList), ("B".toList, "3".toList)]) :=
  ⟨by decide, by decide,
    merge_target_wins ("A: 2; B: 3".toList) ("A: 1".toList) ("A".toList) ("B".toList)
      ("1".toList) ("2".toList) ("3".toList) (by decide) (by decide)⟩

/-! ### C4: failure condition of the style parser -/

theorem foldCss_eq_none :
    ∀ (l : List Str) (acc : List (Str × Str)),
      (l.foldlM
        (fun acc entry => (parseEntry entry).map (fun kv => dictInsert acc kv.1 kv.2))
        acc = (none : Option (List (Str × Str)))) ↔
      ∃ seg ∈ l, parseEntry seg = none
  | [], acc => by simp
  | e :: l, acc => by
    match he : parseEntry e with
    | none => simp [he]
    | some kv => simp [he, foldCss_eq_none l]

theorem parseEntry_eq_none (entry : Str) :
    parseEntry entry = none ↔ (splitOnChar ':' entry).length ≠ 2 := by
  unfold parseEntry
  match h : splitOnChar ':' entry with
  | [] => simp
  | [a] => simp
  | [a, b] => simp
  | a :: b :: c :: l => simp

/-- C4 counterexample: the claim says a value may itself contain `:` (split on
the first `:` only) and that parsing fails exactly when some non-empty segment
lacks a `:`.  On input `"a: b:c"` the single segment is non-empty and contains
`:`, yet `css_to_dict` fails, because the source splits on every `:` and the
two-variable unpacking raises on three parts. -/
theorem css_colon_value_fails :
    css_to_dict ("a: b:c".toList) = none ∧
    ∀ seg ∈ splitOnChar ';' ("a: b:c".toList), seg ≠ [] ∧ ':' ∈ seg := by
  decide

/-- C4 amended: `css_to_dict` splits on `;` keeping empty segments, splits each
segment on every `:`, trims both sides, and fails exactly when the input is
non-empty and some segment (empty segments included) does not split at `:` into
exactly two parts; parsing the empty string yields the empty map. -/
theorem css_failure_characterization (s : Str) :
    css_to_dict [] = some [] ∧
    (css_to_dict s = none ↔
      s ≠ [] ∧ ∃ seg ∈ splitOnChar ';' s, (splitOnChar ':' seg).length ≠ 2) := by
  refine ⟨by simp [css_to_dict], ?_⟩
  by_cases hs : s = []
  · simp [hs, css_to_dict]
  · rw [css_to_dict, if_neg hs, foldCss_eq_none]
    simp only [hs, ne_eq, not_false_eq_true, true_and]
    constructor
    · rintro ⟨seg, hseg, hn⟩
      exact ⟨seg, hseg, (parseEntry_eq_none seg).mp hn⟩
    · rintro ⟨seg, hseg, hn⟩
      exact ⟨seg, hseg, (parseEntry_eq_none seg).mpr hn⟩

/-! ### Facts about trimming -/

/-- The first character, when there is one, is not whitespace. -/
def headNotSpace : Str → Bool
  | [] => true
  | c :: _ => !isSpaceChar c

theorem headNotSpace_dropWhile (l : Str) :
    headNotSpace (l.dropWhile isSpaceChar) = true := by
  induction l with
  | nil => rfl
  | cons c cs ih =>
    rw [List.dropWhile_cons]
    by_cases h : isSpaceChar c
    · simp only [h, if_true]; exact ih
    · simp [h, headNotSpace]

theorem dropWhile_of_headNotSpace {l : Str} (h : headNotSpace l = true) :
    l.dropWhile isSpaceChar = l := by
  cases l with
  | nil => rfl
  | cons c cs =>
    simp only [headNotSpace, Bool.not_eq_true'] at h
    simp [List.dropWhile_cons, h]

theorem exists_dropWhile_append (p : Char → Bool) (l : Str) :
    ∃ r, l = r ++ l.dropWhile p := by
  induction l with
  | nil => exact ⟨[], rfl⟩
  | cons c cs ih =>
    by_cases h : p c
    · obtain ⟨r, hr⟩ := ih
      refine ⟨c :: r, ?_⟩
      rw [List.dropWhile_cons, if_pos h, List.cons_append]
      exact congrArg (c :: ·) hr
    · exact ⟨[], by simp [List.dropWhile_cons, h]⟩

theorem headNotSpace_trimChars (l : Str) : headNotSpace (trimChars l) = true := by
  unfold trimChars
  obtain ⟨r, hr⟩ :=
    exists_dropWhile_append isSpaceChar ((l.dropWhile isSpaceChar).reverse)
  match hyr : ((l.dropWhile isSpaceChar).reverse.dropWhile isSpaceChar).reverse with
  | [] => simp [headNotSpace]
  | c :: t =>
    have haa : l.dropWhile isSpaceChar =
        ((l.dropWhile isSpaceChar).reverse.dropWhile isSpaceChar).reverse ++ r.reverse := by
      have h2 := congrArg List.reverse hr
      rwa [List.reverse_reverse, List.reverse_append] at h2
    have hhead : headNotSpace (l.dropWhile isSpaceChar) = true := headNotSpace_dropWhile l
    rw [haa, hyr] at hhead
    simpa [headNotSpace] using hhead

theorem trimChars_trimChars (l : Str) : trimChars (trimChars l) = trimChars l := by
  have h1 : (trimChars l).dropWhile isSpaceChar = trimChars l :=
    dropWhile_of_headNotSpace (headNotSpace_trimChars l)
  show (((trimChars l).dropWhile isSpaceChar).reverse.dropWhile isSpaceChar).reverse = trimChars l
  rw [h1]
  have h2 : (trimChars l).reverse = ((l.dropWhile isSpaceChar).reverse).dropWhile isSpaceChar := by
    show ((((l.dropWhile isSpaceChar).reverse).dropWhile isSpaceChar).reverse).reverse = _
    rw [List.reverse_reverse]
  rw [h2, dropWhile_of_headNotSpace (headNotSpace_dropWhile _), ← h2, List.reverse_reverse]

theorem isSpaceChar_space : isSpaceChar ' ' = true := by decide

theorem trimChars_cons_space (v : Str) : trimChars (' ' :: v) = trimChars v := by
  unfold trimChars
  rw [List.dropWhile_cons, isSpaceChar_space]
  simp

theorem mem_of_mem_dropWhileSp {l : Str} {x : Char} (h : x ∈ l.dropWhile isSpaceChar) :
    x ∈ l := by
  obtain ⟨r, hr⟩ := exists_dropWhile_append isSpaceChar l
  rw [hr]
  exact List.mem_append.mpr (Or.inr h)

theorem mem_of_mem_trimChars {l : Str} {x : Char} (h : x ∈ trimChars l) : x ∈ l := by
  unfold trimChars at h
  rw [List.mem_reverse] at h
  have h2 := mem_of_mem_dropWhileSp h
  rw [List.mem_reverse] at h2
  exact mem_of_mem_dropWhileSp h2

/-! ### Invariants of parsed style maps -/

/-- A key/value pair as produced by a successful `css_to_dict`: both parts are
free of the two separator characters and already trimmed. -/
def GoodPair (kv : Str × Str) : Prop :=
  ':' ∉ kv.1 ∧ ':' ∉ kv.2 ∧ ';' ∉ kv.1 ∧ ';' ∉ kv.2 ∧
  trimChars kv.1 = kv.1 ∧ trimChars kv.2 = kv.2

theorem parseEntry_eq_some {entry k v : Str} (h : parseEntry entry = some (k, v)) :
    ∃ k0 v0, splitOnChar ':' entry = [k0, v0] ∧ k = trimChars k0 ∧ v = trimChars v0 := by
  unfold parseEntry at h
  match hs : splitOnChar ':' entry with
  | [] => rw [hs] at h; simp at h
  | [a] => rw [hs] at h; simp at h
  | [a, b] =>
    rw [hs] at h
    simp only [List.map_cons, List.map_nil, Option.some.injEq, Prod.mk.injEq] at h
    exact ⟨a, b, rfl, h.1.symm, h.2.symm⟩
  | a :: b :: c :: l => rw [hs] at h; simp at h

theorem parseEntry_good {entry k v : Str} (hsemi : ';' ∉ entry)
    (h : parseEntry entry = some (k, v)) : GoodPair (k, v) := by
  obtain ⟨k0, v0, hs, hk, hv⟩ := parseEntry_eq_some h
  have hk0 : k0 ∈ splitOnChar ':' entry := by rw [hs]; exact List.mem_cons_self _ _
  have hv0 : v0 ∈ splitOnChar ':' entry := by rw [hs]; simp
  subst hk; subst hv
  refine ⟨?_, ?_, ?_, ?_, trimChars_trimChars k0, trimChars_trimChars v0⟩
  · exact fun hx => mem_splitOnChar_not_mem hk0 (mem_of_mem_trimChars hx)
  · exact fun hx => mem_splitOnChar_not_mem hv0 (mem_of_mem_trimChars hx)
  · exact fun hx => hsemi (mem_of_mem_splitOnChar hk0 (mem_of_mem_trimChars hx))
  · exact fun hx => hsemi (mem_of_mem_splitOnChar hv0 (mem_of_mem_trimChars hx))

theorem dictInsert_mem :
    ∀ {m : List (Str × Str)} {k v : Str} {kv : Str × Str},
      kv ∈ dictInsert m k v → kv ∈ m ∨ kv = (k, v)
  | [], k, v, kv, h => by
    simp only [dictInsert, List.mem_singleton] at h
    exact Or.inr h
  | (k0, v0) :: rest, k, v, kv, h => by
    by_cases he : k0 = k
    · rw [dictInsert, if_pos he] at h
      rcases List.mem_cons.mp h with h | h
      · exact Or.inr h
      · exact Or.inl (List.mem_cons_of_mem _ h)
    · rw [dictInsert, if_neg he] at h
      rcases List.mem_cons.mp h with h | h
      · exact Or.inl (by simp [h])
      · rcases dictInsert_mem h with h | h
        · exact Or.inl (List.mem_cons_of_mem _ h)
        · exact Or.inr h

theorem dictInsert_keys :
    ∀ (m : List (Str × Str)) (k v : Str),
      (dictInsert m k v).map Prod.fst = m.map Prod.fst ∨
      (dictInsert m k v).map Prod.fst = m.map Prod.fst ++ [k]
  | [], k, v => Or.inr (by simp [dictInsert])
  | (k0, v0) :: rest, k, v => by
    by_cases he : k0 = k
    · subst he
      rw [dictInsert, if_pos rfl]
      exact Or.inl (by simp)
    · rw [dictInsert, if_neg he]
      rcases dictInsert_keys rest k v with h | h
      · exact Or.inl (by simp [h])
      · exact Or.inr (by simp [h])

theorem dictInsert_nodup :
    ∀ {m : List (Str × Str)}, (m.map Prod.fst).Nodup → ∀ (k v : Str),
      ((dictInsert m k v).map Prod.fst).Nodup
  | [], _, k, v => by simp [dictInsert]
  | (k0, v0) :: rest, h, k, v => by
    rw [List.map_cons, List.nodup_cons] at h
    by_cases he : k0 = k
    · subst he
      rw [dictInsert, if_pos rfl]
      simpa [List.nodup_cons] using h
    · rw [dictInsert, if_neg he]
      rw [List.map_cons, List.nodup_cons]
      refine ⟨?_, dictInsert_nodup h.2 k v⟩
      rcases dictInsert_keys rest k v with hk | hk
      · rw [hk]; exact h.1
      · rw [hk]
        intro hx
        rcases List.mem_append.mp hx with hx | hx
        · exact h.1 hx
        · exact he (List.mem_singleton.mp hx)

theorem dictInsert_append :
    ∀ {m : List (Str × Str)} {k : Str}, k ∉ m.map Prod.fst → ∀ (v : Str),
      dictInsert m k v = m ++ [(k, v)]
  | [], k, _, v => rfl
  | (k0, v0) :: rest, k, h, v => by
    have h0 : ¬k0 = k := by
      intro he
      exact h (by simp [he])
    have h1 : k ∉ rest.map Prod.fst := fun hx => h (by simp [hx])
    rw [dictInsert, if_neg h0, dictInsert_append h1 v, List.cons_append]

theorem fold_css_good :
    ∀ (entries : List Str) (acc m : List (Str × Str)),
      (∀ e ∈ entries, ';' ∉ e) →
      (∀ kv ∈ acc, GoodPair kv) → (acc.map Prod.fst).Nodup →
      entries.foldlM (fun acc entry => (parseEntry entry).map
        (fun kv => dictInsert acc kv.1 kv.2)) acc = some m →
      (∀ kv ∈ m, GoodPair kv) ∧ (m.map Prod.fst).Nodup
  | [], acc, m, _, hg, hn, h => by
    simp only [List.foldlM_nil] at h
    have h' : acc = m := Option.some.inj h
    subst h'
    exact ⟨hg, hn⟩
  | e :: entries, acc, m, hsemi, hg, hn, h => by
    simp only [List.foldlM_cons] at h
    match hp : parseEntry e with
    | none => rw [hp] at h; simp at h
    | some (k, v) =>
      rw [hp] at h
      simp only [Option.map_some'] at h
      rw [show ((some (dictInsert acc k v) : Option (List (Str × Str))) >>=
            fun b => entries.foldlM (fun acc entry => (parseEntry entry).map
              (fun kv => dictInsert acc kv.1 kv.2)) b) =
          entries.foldlM (fun acc entry => (parseEntry entry).map
            (fun kv => dictInsert acc kv.1 kv.2)) (dictInsert acc k v) from rfl] at h
      have hkv : GoodPair (k, v) := parseEntry_good (hsemi e (List.mem_cons_self _ _)) hp
      refine fold_css_good entries (dictInsert acc k v) m
        (fun e' he' => hsemi e' (List.mem_cons_of_mem _ he'))
        (fun kv' hkv' => ?_) (dictInsert_nodup hn k v) h
      rcases dictInsert_mem hkv' with h' | h'
      · exact hg _ h'
      · exact h' ▸ hkv

theorem css_good {s : Str} {m : List (Str × Str)} (h : css_to_dict s = some m) :
    (∀ kv ∈ m, GoodPair kv) ∧ (m.map Prod.fst).Nodup := by
  unfold css_to_dict at h
  by_cases hs : s = []
  · rw [if_pos hs] at h
    simp only [Option.some.injEq] at h
    subst h
    simp
  · rw [if_neg hs] at h
    exact fold_css_good _ [] m (fun e he => mem_splitOnChar_not_mem he)
      (by simp) (by simp) h

/-! ### Serialization and re-parsing -/

theorem entryStr_ne_nil (kv : Str × Str) : entryStr kv ≠ [] := by
  intro h
  simp [entryStr] at h

theorem semi_not_mem_entryStr {kv : Str × Str} (h : GoodPair kv) : ';' ∉ entryStr kv := by
  obtain ⟨_, _, h1, h2, _, _⟩ := h
  intro hx
  unfold entryStr at hx
  rcases List.mem_append.mp hx with hx | hx
  · exact h1 hx
  · rcases List.mem_cons.mp hx with hx | hx
    · exact absurd hx (by decide)
    · rcases List.mem_cons.mp hx with hx | hx
      · exact absurd hx (by decide)
      · exact h2 hx

theorem split_join_entries :
    ∀ (es : List Str) (e : Str), ';' ∉ e → (∀ x ∈ es, ';' ∉ x) →
      splitOnChar ';' (joinWith [';', ' '] (e :: es)) = e :: es.map (fun x => ' ' :: x)
  | [], e, he, _ => by
    simp [joinWith, splitOnChar_of_not_mem he]
  | e' :: es, e, he, hes => by
    have h1 : joinWith [';', ' '] (e :: e' :: es) =
        e ++ ';' :: ' ' :: joinWith [';', ' '] (e' :: es) := by
      show e ++ [';', ' '] ++ joinWith [';', ' '] (e' :: es) = _
      rw [List.append_assoc]
      rfl
    rw [h1, splitOnChar_append _ he, splitOnChar_cons_ne (by decide),
      split_join_entries es e' (hes e' (List.mem_cons_self _ _))
        (fun x hx => hes x (List.mem_cons_of_mem _ hx)),
      consHead_cons]
    simp

theorem splitColon_entryStr {k v : Str} (h1 : ':' ∉ k) (h2 : ':' ∉ v) :
    splitOnChar ':' (entryStr (k, v)) = [k, ' ' :: v] := by
  have hrest : (':' : Char) ∉ ' ' :: v := by
    intro hx
    rcases List.mem_cons.mp hx with hx | hx
    · exact absurd hx (by decide)
    · exact h2 hx
  show splitOnChar ':' (k ++ ':' :: ' ' :: v) = [k, ' ' :: v]
  rw [splitOnChar_append _ h1, splitOnChar_of_not_mem hrest]

theorem parseEntry_entryStr {kv : Str × Str} (h : GoodPair kv) :
    parseEntry (entryStr kv) = some kv := by
  obtain ⟨k, v⟩ := kv
  obtain ⟨h1, h2, _, _, h5, h6⟩ := h
  unfold parseEntry
  rw [splitColon_entryStr h1 h2]
  simp [trimChars_cons_space, h5, h6]

theorem parseEntry_space_entryStr {kv : Str × Str} (h : GoodPair kv) :
    parseEntry (' ' :: entryStr kv) = some kv := by
  obtain ⟨k, v⟩ := kv
  obtain ⟨h1, h2, _, _, h5, h6⟩ := h
  unfold parseEntry
  rw [splitOnChar_cons_ne (by decide), splitColon_entryStr h1 h2, consHead_cons]
  simp [trimChars_cons_space, h5, h6]

theorem fold_tail :
    ∀ (rest : List (Str × Str)) (acc : List (Str × Str)),
      (∀ kv ∈ rest, GoodPair kv) →
      ((acc ++ rest).map Prod.fst).Nodup →
      (rest.map (fun kv => ' ' :: entryStr kv)).foldlM
        (fun a entry => (parseEntry entry).map (fun kv => dictInsert a kv.1 kv.2)) acc =
        some (acc ++ rest)
  | [], acc, _, _ => by
    simp only [List.map_nil, List.foldlM_nil, List.append_nil]
    rfl
  | kv :: rest, acc, hg, hn => by
    simp only [List.map_cons, List.foldlM_cons]
    rw [parseEntry_space_entryStr (hg kv (List.mem_cons_self _ _))]
    simp only [Option.map_some']
    have hk : kv.1 ∉ acc.map Prod.fst := by
      have hd := List.disjoint_of_nodup_append (by simpa using hn)
      exact fun hx => hd hx (List.mem_cons_self _ _)
    rw [show ((some (dictInsert acc kv.1 kv.2) : Option (List (Str × Str))) >>=
          fun b => (rest.map (fun kv => ' ' :: entryStr kv)).foldlM
            (fun a entry => (parseEntry entry).map (fun kv => dictInsert a kv.1 kv.2)) b) =
        (rest.map (fun kv => ' ' :: entryStr kv)).foldlM
          (fun a entry => (parseEntry entry).map (fun kv => dictInsert a kv.1 kv.2))
          (dictInsert acc kv.1 kv.2) from rfl]
    rw [dictInsert_append hk]
    have hrec := fold_tail rest (acc ++ [(kv.1, kv.2)])
      (fun x hx => hg x (List.mem_cons_of_mem _ hx))
      (by simpa [List.append_assoc] using hn)
    simpa [List.append_assoc] using hrec

/-- C7: round trip.  Whenever `css_to_dict` succeeds on a string, serializing
the result with `dict_to_css` and parsing again reproduces exactly the same
map: same keys, same order, same values.  Duplicate keys have already been
collapsed by the first parse (last write wins at the position of first
appearance, by the shape of `dictInsert`). -/
theorem css_roundtrip (s : Str) (m : List (Str × Str)) (h : css_to_dict s = some m) :
    css_to_dict (dict_to_css m) = some m := by
  obtain ⟨hg, hn⟩ := css_good h
  match m with
  | [] => simp [dict_to_css, joinWith, css_to_dict]
  | kv :: rest =>
    have hgkv : GoodPair kv := hg kv (List.mem_cons_self _ _)
    have hsemis : ∀ x ∈ (kv :: rest).map entryStr, ';' ∉ x := by
      intro x hx
      obtain ⟨kv', hkv', hx'⟩ := List.mem_map.mp hx
      exact hx' ▸ semi_not_mem_entryStr (hg kv' hkv')
    have hjoin : splitOnChar ';' (dict_to_css (kv :: rest)) =
        entryStr kv :: (rest.map entryStr).map (fun x => ' ' :: x) := by
      unfold dict_to_css
      rw [List.map_cons]
      exact split_join_entries (rest.map entryStr) (entryStr kv)
        (hsemis _ (by simp)) (fun x hx => hsemis x (by simp [hx]))
    have hne : dict_to_css (kv :: rest) ≠ [] := by
      intro h0
      rw [h0] at hjoin
      simp only [splitOnChar] at hjoin
      rw [List.cons.injEq] at hjoin
      exact entryStr_ne_nil kv hjoin.1.symm
    unfold css_to_dict
    rw [if_neg hne, hjoin]
    simp only [List.foldlM_cons]
    rw [parseEntry_entryStr hgkv]
    simp only [Option.map_some']
    rw [show ((some (dictInsert [] kv.1 kv.2) : Option (List (Str × Str))) >>=
          fun b => ((rest.map entryStr).map (fun x => ' ' :: x)).foldlM
            (fun acc entry => (parseEntry entry).map (fun kv => dictInsert acc kv.1 kv.2)) b) =
        ((rest.map entryStr).map (fun x => ' ' :: x)).foldlM
          (fun acc entry => (parseEntry entry).map (fun kv => dictInsert acc kv.1 kv.2))
          (dictInsert [] kv.1 kv.2) from rfl]
    have hmm : (rest.map entryStr).map (fun x => ' ' :: x) =
        rest.map (fun kv => ' ' :: entryStr kv) := by
      rw [List.map_map]
      rfl
    rw [hmm, show dictInsert [] kv.1 kv.2 = [kv] from rfl]
    have hrec := fold_tail rest [kv] (fun x hx => hg x (List.mem_cons_of_mem _ hx))
      (by simpa using hn)
    simpa using hrec

/-- C7 witness: a concrete well-formed style string round-trips. -/
theorem css_roundtrip_witness :
    css_to_dict ("a: 1;b:2".toList) =
      some [("a".toList, "1".toList), ("b".toList, "2".toList)] ∧
    css_to_dict (dict_to_css [("a".toList, "1".toList), ("b".toList, "2".toList)]) =
      some [("a".toList, "1".toList), ("b".toList, "2".toList)] :=
  ⟨by decide,
    css_roundtrip ("a: 1;b:2".toList)
      [("a".toList, "1".toList), ("b".toList, "2".toList)] (by decide)⟩

/-! ### Documents

An XML element: tag, ordered attribute list, ordered children.  The child list
is a mutually inductive type so that every operation below is structurally
recursive and evaluates inside the kernel. -/

mutual
inductive XElem : Type where
  | mk : String → List (String × String) → XElemList → XElem
inductive XElemList : Type where
  | nil : XElemList
  | cons : XElem → XElemList → XElemList
end

/-- Python's `attrib.get(key)` on an element's attribute mapping. -/
def attrLookup : List (String × String) → String → Option String
  | [], _ => none
  | (k, v) :: rest, key => if k = key then some v else attrLookup rest key

def XElem.attrs : XElem → List (String × String)
  | .mk _ a _ => a

def XElem.kids : XElem → XElemList
  | .mk _ _ c => c

/-- The hidden-style marker matched verbatim by the XPath predicate
`[@style='display:none']` in `Tree.write`. -/
def hiddenMarker : String := "display:none"

def isHidden (e : XElem) : Bool := attrLookup e.attrs "style" == some hiddenMarker

/-! The pruning pass of `Tree.write`: for every parent of an element whose own
style attribute is exactly the hidden marker, remove that child (and with it
its whole subtree).  The two XPath queries plus `parent.remove` amount to this
recursive filter; the root element itself is never removed. -/
mutual
def pruneX : XElem → XElem
  | .mk tag attrs ch => .mk tag attrs (pruneL ch)
def pruneL : XElemList → XElemList
  | .nil => .nil
  | .cons c cs => if isHidden c then pruneL cs else .cons (pruneX c) (pruneL cs)
end

def serializeAttrs : List (String × String) → String
  | [] => ""
  | (k, v) :: rest => " " ++ k ++ "=\"" ++ v ++ "\"" ++ serializeAttrs rest

/-! `ElementTree.tostring`: the serialized byte form used by `Tree.write` for
its cache comparison. -/
mutual
def serializeX : XElem → String
  | .mk tag attrs ch =>
    "<" ++ tag ++ serializeAttrs attrs ++ ">" ++ serializeL ch ++ "</" ++ tag ++ ">"
def serializeL : XElemList → String
  | .nil => ""
  | .cons c cs => serializeX c ++ serializeL cs
end

/-! ### C6: pruning removes exactly the elements whose own style is the marker -/

def memX (x : XElem) : XElemList → Prop
  | .nil => False
  | .cons c cs => x = c ∨ memX x cs

/-! `Reach e d`: `d` is a node of the tree rooted at `e` (a chain of child
steps starting at `e`). -/
inductive Reach : XElem → XElem → Prop where
  | refl (e : XElem) : Reach e e
  | step {e c d : XElem} : memX c e.kids → Reach c d → Reach e d

/-- `ReachVis e d`: `d` is reachable from `e` through child steps none of
which enters an element whose own style attribute equals the hidden marker.
This is the spec's description of what survives filtering. -/
inductive ReachVis : XElem → XElem → Prop where
  | refl (e : XElem) : ReachVis e e
  | step {e c d : XElem} : memX c e.kids → isHidden c = false → ReachVis c d → ReachVis e d

theorem kids_pruneX (e : XElem) : (pruneX e).kids = pruneL e.kids := by
  cases e
  rfl

theorem memX_pruneL :
    ∀ (ch : XElemList) (c : XElem),
      memX c (pruneL ch) ↔ ∃ c0, memX c0 ch ∧ isHidden c0 = false ∧ c = pruneX c0
  | .nil, c => by simp [pruneL, memX]
  | .cons c0 cs, c => by
    by_cases h : isHidden c0
    · rw [show pruneL (.cons c0 cs) = pruneL cs by simp [pruneL, h]]
      rw [memX_pruneL cs c]
      constructor
      · rintro ⟨c1, hc1, hh, he⟩
        exact ⟨c1, Or.inr hc1, hh, he⟩
      · rintro ⟨c1, hc1, hh, he⟩
        rcases hc1 with rfl | hc1
        · exact absurd h (by simp [hh])
        · exact ⟨c1, hc1, hh, he⟩
    · rw [show pruneL (.cons c0 cs) = .cons (pruneX c0) (pruneL cs) by simp [pruneL, h]]
      rw [show memX c (.cons (pruneX c0) (pruneL cs)) =
        (c = pruneX c0 ∨ memX c (pruneL cs)) from rfl]
      rw [memX_pruneL cs c]
      constructor
      · rintro (rfl | ⟨c1, hc1, hh, he⟩)
        · exact ⟨c0, Or.inl rfl, by simp [h], rfl⟩
        · exact ⟨c1, Or.inr hc1, hh, he⟩
      · rintro ⟨c1, hc1, hh, he⟩
        rcases hc1 with rfl | hc1
        · exact Or.inl he
        · exact Or.inr ⟨c1, hc1, hh, he⟩

theorem reach_pruneX_fwd {x d' : XElem} (hr : Reach x d') :
    ∀ e, x = pruneX e → ∃ d, ReachVis e d ∧ d' = pruneX d := by
  induction hr with
  | refl a => exact fun e he => ⟨e, ReachVis.refl e, he⟩
  | step hmem hr ih =>
    intro e' he
    rw [he, kids_pruneX] at hmem
    obtain ⟨c0, hc0, hh, hce⟩ := (memX_pruneL e'.kids _).mp hmem
    obtain ⟨dd, hv, hd⟩ := ih c0 hce
    exact ⟨dd, ReachVis.step hc0 hh hv, hd⟩

theorem reach_pruneX_bwd {e d : XElem} (h : ReachVis e d) :
    Reach (pruneX e) (pruneX d) := by
  induction h with
  | refl a => exact Reach.refl _
  | step hmem hh hv ih =>
    refine Reach.step ?_ ih
    rw [kids_pruneX]
    exact (memX_pruneL _ _).mpr ⟨_, hmem, hh, rfl⟩

/-- C6: in the filtered copy built by `write`, the surviving nodes are exactly
the (recursively filtered) images of nodes reachable without ever stepping
into an element whose own style attribute equals the hidden marker.  An
element is removed at its own level iff its own style is the marker verbatim;
descendants of a removed element disappear only because the removed ancestor
took its whole subtree with it, and an element hidden merely by an ancestor's
style is never independently pruned. -/
theorem prune_removes_only_self_hidden (e d' : XElem) :
    Reach (pruneX e) d' ↔ ∃ d, ReachVis e d ∧ d' = pruneX d := by
  constructor
  · exact fun h => reach_pruneX_fwd h e rfl
  · rintro ⟨d, hv, rfl⟩
    exact reach_pruneX_bwd hv

/-! ### The incremental writer -/

/-- What `Tree.write` reads off a top-level child of the super-root: its
`visible` flag and its (optional) underlying document. -/
structure SlideChild where
  visible : Bool
  tree : Option XElem

/-- The loop head of `Tree.write`: the first child with `child.visible and
child.tree` decides the outcome; its document is the one written. -/
def findVisibleTree : List SlideChild → Option XElem
  | [] => none
  | c :: cs =>
    match c.visible, c.tree with
    | true, some d => some d
    | _, _ => findVisibleTree cs

/-- `Tree.write` as a state transformer: the forest is returned unchanged
(pruning happens on a deep copy), the cache slot holds the last written
document, and the Bool is the Changed/Unchanged signal. -/
def treeWrite (forest : List SlideChild) (slot : Option XElem) :
    Bool × List SlideChild × Option XElem :=
  match findVisibleTree forest with
  | none => (false, forest, slot)
  | some d =>
    match slot with
    | some old =>
      if serializeX old = serializeX (pruneX d) then (false, forest, slot)
      else (true, forest, some (pruneX d))
    | none => (true, forest, some (pruneX d))

/-- C10: `write` never modifies the in-memory forest: the pruning runs on a
deep copy of the visible child's document, so the forest component of the
state is returned exactly as it was for every input. -/
theorem write_pure (forest : List SlideChild) (slot : Option XElem) :
    (treeWrite forest slot).2.1 = forest := by
  unfold treeWrite
  cases hf : findVisibleTree forest with
  | none => rfl
  | some d =>
    cases slot with
    | none => rfl
    | some old =>
      by_cases h : serializeX old = serializeX (pruneX d)
      · simp [h]
      · simp [h]

/-- C2: when some visible child with a document exists (always the case at a
yield point of the walk), `write` reports `Unchanged` and leaves the slot
untouched exactly when the slot already holds a document whose serialization
equals that of the newly filtered document; otherwise it stores the filtered
document and reports `Changed`.  Consequently writing the same configuration
twice into an empty slot gives `Changed` then `Unchanged` with the slot
untouched by the second call. -/
theorem write_incremental (forest : List SlideChild) (slot : Option XElem) (d : XElem)
    (h : findVisibleTree forest = some d) :
    ((treeWrite forest slot).1 = false ∧ (treeWrite forest slot).2.2 = slot ↔
      ∃ old, slot = some old ∧ serializeX old = serializeX (pruneX d)) ∧
    ((treeWrite forest slot).1 = true → (treeWrite forest slot).2.2 = some (pruneX d)) ∧
    (treeWrite forest none).1 = true ∧
    treeWrite forest ((treeWrite forest none).2.2) =
      (false, forest, (treeWrite forest none).2.2) := by
  have h1 : treeWrite forest none = (true, forest, some (pruneX d)) := by
    simp [treeWrite, h]
  refine ⟨?_, ?_, by rw [h1], by rw [h1]; simp [treeWrite, h]⟩
  · cases slot with
    | none => simp [treeWrite, h]
    | some old =>
      by_cases he : serializeX old = serializeX (pruneX d)
      · simp [treeWrite, h, he]
      · simp only [treeWrite, h, if_neg he]
        constructor
        · rintro ⟨hf, _⟩
          exact absurd hf (by simp)
        · rintro ⟨old', ho, he'⟩
          rw [Option.some.injEq] at ho
          subst ho
          exact absurd he' he
  · cases slot with
    | none => simp [treeWrite, h]
    | some old =>
      by_cases he : serializeX old = serializeX (pruneX d)
      · simp [treeWrite, h, he]
      · simp [treeWrite, h, he]

def sampleDoc : XElem :=
  .mk "svg" [] (.cons (.mk "g" [("style", "display:none")] .nil)
    (.cons (.mk "g" [("style", "display:inline")] .nil) .nil))

def sampleWriteForest : List SlideChild := [⟨true, some sampleDoc⟩]

/-- C2 witness: a one-child forest with a document, starting from an empty
slot. -/
theorem write_incremental_witness :
    findVisibleTree sampleWriteForest = some sampleDoc ∧
    (((treeWrite sampleWriteForest none).1 = false ∧
        (treeWrite sampleWriteForest none).2.2 = none ↔
      ∃ old, (none : Option XElem) = some old ∧
        serializeX old = serializeX (pruneX sampleDoc)) ∧
    ((treeWrite sampleWriteForest none).1 = true →
      (treeWrite sampleWriteForest none).2.2 = some (pruneX sampleDoc)) ∧
    (treeWrite sampleWriteForest none).1 = true ∧
    treeWrite sampleWriteForest ((treeWrite sampleWriteForest none).2.2) =
      (false, sampleWriteForest, (treeWrite sampleWriteForest none).2.2)) :=
  ⟨rfl, write_incremental sampleWriteForest none sampleDoc rfl⟩

/-! ### The layer tree builder -/

/-- `inkscape(name)` from the source: qualify a name with the Inkscape
namespace. -/
def inkscape (nm : String) : String :=
  "\x7bhttp://www.inkscape.org/namespaces/inkscape\x7d" ++ nm

def lastChar (c : Char) : List Char → Char
  | [] => c
  | d :: ds => lastChar d ds

/-! A layer node: an optional element reference carrying only its style
attribute (the one field the visibility machinery touches), the `visible`
flag, and the child layer nodes. -/
mutual
inductive LTree : Type where
  | mk : Option (Option String) → Bool → LTreeList → LTree
inductive LTreeList : Type where
  | nil : LTreeList
  | cons : LTree → LTreeList → LTreeList
end

/-! `layer(element)` from the source.  `Except.error ()` models the Python
`IndexError` raised by `label[0]` on an empty label.  A returned node wraps
the element with `visible = False` already reflected as `display:none` on its
style. -/
mutual
def layer : XElem → Except Unit (Option LTree)
  | .mk _ attrs ch =>
    if attrLookup attrs (inkscape "groupmode") = some "layer" then
      match attrLookup attrs (inkscape "label") with
      | none => Except.ok none
      | some label =>
        match label.data with
        | [] => Except.error ()
        | c :: cs =>
          if c = '(' && lastChar c cs = ')' then Except.ok none
          else
            match layerList ch with
            | Except.error u => Except.error u
            | Except.ok ts => Except.ok (some (LTree.mk (some (some "display:none")) false ts))
    else Except.ok none
def layerList : XElemList → Except Unit LTreeList
  | .nil => Except.ok .nil
  | .cons c cs =>
    match layer c with
    | Except.error u => Except.error u
    | Except.ok r =>
      match layerList cs with
      | Except.error u => Except.error u
      | Except.ok rest =>
        match r with
        | some t => Except.ok (.cons t rest)
        | none => Except.ok rest
end

/-- C9: on an element carrying the layer-group marker whose label attribute is
present but empty, `layer` raises (the parenthesized-label test indexes
`label[0]` out of range) instead of returning absent or a node. -/
theorem layer_empty_label_fails (tag : String) (attrs : List (String × String))
    (ch : XElemList)
    (hg : attrLookup attrs (inkscape "groupmode") = some "layer")
    (hl : attrLookup attrs (inkscape "label") = some "") :
    layer (.mk tag attrs ch) = Except.error () := by
  rw [show layer (.mk tag attrs ch) =
    (if attrLookup attrs (inkscape "groupmode") = some "layer" then
      match attrLookup attrs (inkscape "label") with
      | none => Except.ok none
      | some label =>
        match label.data with
        | [] => Except.error ()
        | c :: cs =>
          if c = '(' && lastChar c cs = ')' then Except.ok none
          else
            match layerList ch with
            | Except.error u => Except.error u
            | Except.ok ts => Except.ok (some (LTree.mk (some (some "display:none")) false ts))
    else Except.ok none) from rfl]
  rw [if_pos hg, hl]

/-- C9 witness: a concrete marker-carrying element with an empty label. -/
theorem layer_empty_label_fails_witness :
    attrLookup [(inkscape "groupmode", "layer"), (inkscape "label", "")]
      (inkscape "groupmode") = some "layer" ∧
    attrLookup [(inkscape "groupmode", "layer"), (inkscape "label", "")]
      (inkscape "label") = some "" ∧
    layer (.mk "g" [(inkscape "groupmode", "layer"), (inkscape "label", "")] .nil) =
      Except.error () :=
  ⟨by decide, by decide,
    layer_empty_label_fails "g" [(inkscape "groupmode", "layer"), (inkscape "label", "")]
      .nil (by decide) (by decide)⟩

/-! ### The visibility walker -/

/-! The `allOff` precondition of the walker theorems below is the builder's
actual post-state: `layer_allOff` (after the walker definitions) shows every
node returned by `layer` has `visible = false` and style `display:none`. -/

def styleOn (el : Option (Option String)) : Option (Option String) :=
  el.map (fun _ => some "display:inline")

def styleOff (el : Option (Option String)) : Option (Option String) :=
  el.map (fun _ => some "display:none")

/-- The `visible` property setter: store the flag and, when an element is
present, reflect it onto the element's style attribute. -/
def setVisible : LTree → Bool → LTree
  | .mk el _ ch, v => .mk (if v then styleOn el else styleOff el) v ch

/-! `Tree.__iter__` as a function from a node to the list of whole-subtree
states at each yield moment together with the node's final state: entering
sets `visible = True` (style `display:inline`), a childless node yields
itself, children are walked in order (earlier siblings already back at their
final state, later siblings still untouched), and leaving sets
`visible = False` (style `display:none`). -/
mutual
def iterTree : LTree → List LTree × LTree
  | .mk el _ .nil =>
    ([LTree.mk (styleOn el) true .nil], LTree.mk (styleOff el) false .nil)
  | .mk el _ (.cons c cs) =>
    ((iterList (.cons c cs)).1.map (fun l => LTree.mk (styleOn el) true l),
     LTree.mk (styleOff el) false (iterList (.cons c cs)).2)
def iterList : LTreeList → List LTreeList × LTreeList
  | .nil => ([], .nil)
  | .cons c cs =>
    ((iterTree c).1.map (fun s => LTreeList.cons s cs) ++
      (iterList cs).1.map (fun l => LTreeList.cons (iterTree c).2 l),
     LTreeList.cons (iterTree c).2 (iterList cs).2)
end

/-! `allOff t`: every node has `visible = false` and, when it has an element,
style exactly `display:none` — the state in which the layer tree builder
hands the forest to the walker. -/
mutual
def allOff : LTree → Bool
  | .mk el v ch =>
    !v && (match el with
      | none => true
      | some st => st == some "display:none") && allOffL ch
def allOffL : LTreeList → Bool
  | .nil => true
  | .cons c cs => allOff c && allOffL cs
end

def bumpHead : List Nat → List Nat
  | [] => []
  | i :: p => (i + 1) :: p

/-! `leafPaths t`: the index paths of the leaves of `t`, in pre-order
(document) order.  A childless node is its own single leaf. -/
mutual
def leafPaths : LTree → List (List Nat)
  | .mk _ _ .nil => [[]]
  | .mk _ _ (.cons c cs) => leafPathsL (.cons c cs)
def leafPathsL : LTreeList → List (List Nat)
  | .nil => []
  | .cons c cs => (leafPaths c).map (fun p => 0 :: p) ++ (leafPathsL cs).map bumpHead
end

/-! `setChain t p`: the configuration in which exactly the chain of nodes
along the path `p` (the root included) is visible with style `display:inline`,
everything else left as in `t`.  This is the spec's description of the state
at a yield point. -/
mutual
def setChain : LTree → List Nat → LTree
  | .mk el _ ch, [] => .mk (styleOn el) true ch
  | .mk el _ ch, i :: p => .mk (styleOn el) true (setChainL ch i p)
def setChainL : LTreeList → Nat → List Nat → LTreeList
  | .nil, _, _ => .nil
  | .cons c cs, 0, p => .cons (setChain c p) cs
  | .cons c cs, Nat.succ i, p => .cons c (setChainL cs i p)
end

def setChainTop (ch : LTreeList) : List Nat → LTreeList
  | [] => ch
  | i :: p => setChainL ch i p

mutual
def nodeAt : LTree → List Nat → Option LTree
  | t, [] => some t
  | .mk _ _ ch, i :: p => nodeAtL ch i p
def nodeAtL : LTreeList → Nat → List Nat → Option LTree
  | .nil, _, _ => none
  | .cons c _, 0, p => nodeAt c p
  | .cons _ cs, Nat.succ i, p => nodeAtL cs i p
end

/-- `onChain q p`: the path `q` lies on the chain from the root to the node at
path `p`, i.e. `q` is a prefix of `p`. -/
def onChain : List Nat → List Nat → Bool
  | [], _ => true
  | i :: q, p =>
    match p with
    | [] => false
    | j :: p' => (i == j) && onChain q p'

theorem nodeAt_nil (t : LTree) : nodeAt t [] = some t := by
  cases t
  rfl

def visFlag : LTree → Bool
  | .mk _ v _ => v

def elemOf : LTree → Option (Option String)
  | .mk el _ _ => el

/-! Destructuring facts for `allOff`. -/

theorem allOff_mk {el : Option (Option String)} {v : Bool} {ch : LTreeList}
    (h : allOff (.mk el v ch) = true) :
    v = false ∧ styleOff el = el ∧ allOffL ch = true := by
  cases el with
  | none =>
    simp only [allOff, Bool.and_eq_true, Bool.not_eq_true'] at h
    exact ⟨h.1.1, rfl, h.2⟩
  | some st =>
    simp only [allOff, Bool.and_eq_true, Bool.not_eq_true', beq_iff_eq] at h
    refine ⟨h.1.1, ?_, h.2⟩
    simp [styleOff, h.1.2]

theorem allOffL_cons {c : LTree} {cs : LTreeList} (h : allOffL (.cons c cs) = true) :
    allOff c = true ∧ allOffL cs = true := by
  simpa [allOffL, Bool.and_eq_true] using h

theorem allOff_flag {u : LTree} (h : allOff u = true) :
    visFlag u = false ∧ ∀ st, elemOf u = some st → st = some "display:none" := by
  obtain ⟨el, v, ch⟩ := u
  obtain ⟨hv, hel, _⟩ := allOff_mk h
  subst hv
  refine ⟨rfl, fun st hst => ?_⟩
  rw [show elemOf (.mk el false ch) = el from rfl] at hst
  subst hst
  simp only [styleOff, Option.map_some', Option.some.injEq] at hel
  exact hel.symm

theorem styleOn_some {el : Option (Option String)} {st : Option String}
    (h : styleOn el = some st) : st = some "display:inline" := by
  cases el with
  | none => simp [styleOn] at h
  | some s0 =>
    simp only [styleOn, Option.map_some', Option.some.injEq] at h
    exact h.symm

/-! The builder hands the walker an all-off forest. -/
mutual
theorem layer_allOff : ∀ (e : XElem) (t : LTree), layer e = Except.ok (some t) →
    allOff t = true
  | .mk tag attrs ch, t, h => by
    simp only [layer] at h
    split at h
    · split at h
      · exact absurd h (by simp)
      · split at h
        · exact absurd h (by simp)
        · split at h
          · exact absurd h (by simp)
          · split at h
            · exact absurd h (by simp)
            next ts hLL =>
              simp only [Except.ok.injEq, Option.some.injEq] at h
              subst h
              simp only [allOff, Bool.not_false, Bool.true_and, Bool.and_eq_true,
                beq_self_eq_true, true_and]
              exact layerList_allOff ch ts hLL
    · exact absurd h (by simp)
theorem layerList_allOff : ∀ (ch : XElemList) (ts : LTreeList),
    layerList ch = Except.ok ts → allOffL ts = true
  | .nil, ts, h => by
    simp only [layerList] at h
    have h2 := Except.ok.inj h
    rw [← h2]
    rfl
  | .cons c cs, ts, h => by
    simp only [layerList] at h
    split at h
    · exact absurd h (by simp)
    next r hL =>
      split at h
      · exact absurd h (by simp)
      next rest hLs =>
        split at h
        next t2 =>
          have h2 := Except.ok.inj h
          rw [← h2]
          have ht := layer_allOff c t2 hL
          simp only [allOffL, Bool.and_eq_true]
          exact ⟨ht, layerList_allOff cs rest hLs⟩
        next =>
          have h2 := Except.ok.inj h
          rw [← h2]
          exact layerList_allOff cs rest hLs
end

theorem leafPathsL_ne_nil : ∀ (ch : LTreeList), ∀ p ∈ leafPathsL ch, p ≠ []
  | .nil => by simp [leafPathsL]
  | .cons c cs => by
    intro p hp
    simp only [leafPathsL] at hp
    rcases List.mem_append.mp hp with hp | hp
    · obtain ⟨q, _, hq⟩ := List.mem_map.mp hp
      rw [← hq]
      simp
    · obtain ⟨q, hq1, hq2⟩ := List.mem_map.mp hp
      have hne := leafPathsL_ne_nil cs q hq1
      rw [← hq2]
      cases q with
      | nil => exact absurd rfl hne
      | cons i q' => simp [bumpHead]

/-! The central refinement: on an all-off forest, the walker's yields are
exactly the chain configurations of the pre-order leaf paths, and the walk
returns the forest to its initial state. -/

mutual
theorem iter_spec : ∀ (t : LTree), allOff t = true →
    iterTree t = ((leafPaths t).map (setChain t), t)
  | .mk el v .nil, h => by
    obtain ⟨hv, hel, _⟩ := allOff_mk h
    subst hv
    rw [show iterTree (.mk el false .nil) =
      ([LTree.mk (styleOn el) true .nil], LTree.mk (styleOff el) false .nil) from rfl]
    rw [hel]
    rfl
  | .mk el v (.cons c cs), h => by
    obtain ⟨hv, hel, hch⟩ := allOff_mk h
    subst hv
    have hl := iterL_spec (.cons c cs) hch
    rw [show iterTree (.mk el false (.cons c cs)) =
      ((iterList (.cons c cs)).1.map (fun l => LTree.mk (styleOn el) true l),
       LTree.mk (styleOff el) false (iterList (.cons c cs)).2) from rfl]
    rw [hl, hel]
    simp only [List.map_map]
    congr 1
    rw [show leafPaths (.mk el false (.cons c cs)) = leafPathsL (.cons c cs) from rfl]
    apply List.map_congr_left
    intro p hp
    have hne := leafPathsL_ne_nil _ p hp
    cases p with
    | nil => exact absurd rfl hne
    | cons i p' => rfl
theorem iterL_spec : ∀ (ch : LTreeList), allOffL ch = true →
    iterList ch = ((leafPathsL ch).map (setChainTop ch), ch)
  | .nil, _ => rfl
  | .cons c cs, h => by
    obtain ⟨hc, hcs⟩ := allOffL_cons h
    have h1 := iter_spec c hc
    have h2 := iterL_spec cs hcs
    rw [show iterList (.cons c cs) =
      ((iterTree c).1.map (fun s => LTreeList.cons s cs) ++
        (iterList cs).1.map (fun l => LTreeList.cons (iterTree c).2 l),
       LTreeList.cons (iterTree c).2 (iterList cs).2) from rfl]
    rw [h1, h2]
    simp only [List.map_map]
    congr 1
    rw [show leafPathsL (.cons c cs) =
      (leafPaths c).map (fun p => 0 :: p) ++ (leafPathsL cs).map bumpHead from rfl]
    rw [List.map_append]
    congr 1
    · simp only [List.map_map]
      apply List.map_congr_left
      intro p hp
      rfl
    · simp only [List.map_map]
      apply List.map_congr_left
      intro p hp
      have hne := leafPathsL_ne_nil cs p hp
      cases p with
      | nil => exact absurd rfl hne
      | cons i p' => rfl
end

/-- C5: on a forest as the builder leaves it (everything off), the walk yields
exactly one configuration per leaf, in pre-order document order: the yield
list is the map of `setChain` over the pre-order leaf paths.  In particular a
childless root yields exactly one configuration, the root itself
(`leafPaths` of a childless node is `[[]]`). -/
theorem walker_yields_per_leaf (t : LTree) (h : allOff t = true) :
    (iterTree t).1 = (leafPaths t).map (setChain t) := by
  rw [iter_spec t h]

/-- C5 witness: three leaves under one synthetic root give exactly three
yields, in order. -/
theorem walker_yields_per_leaf_witness :
    allOff (.mk none false (.cons (.mk (some (some "display:none")) false .nil)
      (.cons (.mk (some (some "display:none")) false .nil)
        (.cons (.mk (some (some "display:none")) false .nil) .nil)))) = true ∧
    (iterTree (.mk none false (.cons (.mk (some (some "display:none")) false .nil)
      (.cons (.mk (some (some "display:none")) false .nil)
        (.cons (.mk (some (some "display:none")) false .nil) .nil))))).1 =
      (leafPaths (.mk none false (.cons (.mk (some (some "display:none")) false .nil)
        (.cons (.mk (some (some "display:none")) false .nil)
          (.cons (.mk (some (some "display:none")) false .nil) .nil))))).map
        (setChain (.mk none false (.cons (.mk (some (some "display:none")) false .nil)
          (.cons (.mk (some (some "display:none")) false .nil)
            (.cons (.mk (some (some "display:none")) false .nil) .nil))))) :=
  ⟨rfl, walker_yields_per_leaf _ rfl⟩

/-! Nodes of an all-off tree are all-off; flags of a chain configuration. -/

mutual
theorem off_nodes : ∀ (t : LTree), allOff t = true → ∀ (q : List Nat) (u : LTree),
    nodeAt t q = some u → allOff u = true
  | t, h, [], u, hq => by
    rw [nodeAt_nil] at hq
    exact (Option.some.inj hq) ▸ h
  | .mk el v ch, h, i :: q, u, hq =>
    off_nodesL ch (allOff_mk h).2.2 i q u hq
theorem off_nodesL : ∀ (ch : LTreeList), allOffL ch = true →
    ∀ (i : Nat) (q : List Nat) (u : LTree), nodeAtL ch i q = some u → allOff u = true
  | .nil, _, i, q, u, hq => by simp [nodeAtL] at hq
  | .cons c cs, h, 0, q, u, hq => off_nodes c (allOffL_cons h).1 q u hq
  | .cons c cs, h, Nat.succ i, q, u, hq => off_nodesL cs (allOffL_cons h).2 i q u hq
end

mutual
theorem chain_flags : ∀ (t : LTree), allOff t = true →
    ∀ (p q : List Nat) (u : LTree), nodeAt (setChain t p) q = some u →
      visFlag u = onChain q p ∧
      ∀ st, elemOf u = some st →
        st = some (if onChain q p then "display:inline" else "display:none")
  | .mk el v ch, h, p, [], u, hq => by
    rw [nodeAt_nil] at hq
    have hu : setChain (.mk el v ch) p = u := Option.some.inj hq
    cases p with
    | nil =>
      rw [show setChain (.mk el v ch) [] = .mk (styleOn el) true ch from rfl] at hu
      subst hu
      exact ⟨rfl, fun st hst => by
        rw [styleOn_some hst]
        rfl⟩
    | cons i p' =>
      rw [show setChain (.mk el v ch) (i :: p') =
        .mk (styleOn el) true (setChainL ch i p') from rfl] at hu
      subst hu
      exact ⟨rfl, fun st hst => by
        rw [styleOn_some hst]
        rfl⟩
  | .mk el v ch, h, p, j :: q', u, hq => by
    have hch := (allOff_mk h).2.2
    cases p with
    | nil =>
      have hq2 : nodeAtL ch j q' = some u := hq
      have hf := allOff_flag (off_nodesL ch hch j q' u hq2)
      refine ⟨by rw [hf.1]; rfl, fun st hst => ?_⟩
      rw [hf.2 st hst]
      rfl
    | cons i p' =>
      have hq2 : nodeAtL (setChainL ch i p') j q' = some u := hq
      exact chain_flagsL ch hch i p' j q' u hq2
theorem chain_flagsL : ∀ (ch : LTreeList), allOffL ch = true →
    ∀ (i : Nat) (p' : List Nat) (j : Nat) (q' : List Nat) (u : LTree),
      nodeAtL (setChainL ch i p') j q' = some u →
      visFlag u = onChain (j :: q') (i :: p') ∧
      ∀ st, elemOf u = some st →
        st = some (if onChain (j :: q') (i :: p') then "display:inline" else "display:none")
  | .nil, h, i, p', j, q', u, hq => by simp [setChainL, nodeAtL] at hq
  | .cons c cs, h, 0, p', 0, q', u, hq => by
    have hq2 : nodeAt (setChain c p') q' = some u := hq
    have hmain := chain_flags c (allOffL_cons h).1 p' q' u hq2
    simpa [onChain] using hmain
  | .cons c cs, h, 0, p', Nat.succ j, q', u, hq => by
    have hq2 : nodeAtL cs j q' = some u := hq
    have hf := allOff_flag (off_nodesL cs (allOffL_cons h).2 j q' u hq2)
    refine ⟨by rw [hf.1]; rfl, fun st hst => ?_⟩
    rw [hf.2 st hst]
    rfl
  | .cons c cs, h, Nat.succ i, p', 0, q', u, hq => by
    have hq2 : nodeAt c q' = some u := hq
    have hf := allOff_flag (off_nodes c (allOffL_cons h).1 q' u hq2)
    refine ⟨by rw [hf.1]; rfl, fun st hst => ?_⟩
    rw [hf.2 st hst]
    rfl
  | .cons c cs, h, Nat.succ i, p', Nat.succ j, q', u, hq => by
    have hq2 : nodeAtL (setChainL cs i p') j q' = some u := hq
    have hmain := chain_flagsL cs (allOffL_cons h).2 i p' j q' u hq2
    have hbeq : (Nat.succ j == Nat.succ i) = (j == i) := by
      by_cases hji : j = i
      · subst hji; simp
      · have h2 : Nat.succ j ≠ Nat.succ i := fun hc => hji (Nat.succ.inj hc)
        simp [hji, h2]
    have heq : onChain (Nat.succ j :: q') (Nat.succ i :: p') = onChain (j :: q') (i :: p') := by
      simp only [onChain]
      rw [hbeq]
    rw [heq]
    exact hmain
end

/-- C1: on a forest as the builder leaves it, at every yield of the walk there
is a pre-order leaf path `p` such that a node is visible exactly when its path
lies on the chain from the super-root to that leaf, and every node that has an
element carries style `display:inline` on the chain and the hidden marker
`display:none` off it. -/
theorem walker_visible_exactly_chain (t : LTree) (h : allOff t = true) :
    ∀ s ∈ (iterTree t).1, ∃ p ∈ leafPaths t,
      ∀ (q : List Nat) (u : LTree), nodeAt s q = some u →
        visFlag u = onChain q p ∧
        ∀ st, elemOf u = some st →
          st = some (if onChain q p then "display:inline" else "display:none") := by
  intro s hs
  rw [iter_spec t h] at hs
  obtain ⟨p, hp, hsp⟩ := List.mem_map.mp hs
  refine ⟨p, hp, fun q u hq => ?_⟩
  rw [← hsp] at hq
  exact chain_flags t h p q u hq

/-- C1 witness: the three-leaf forest of the spec's example. -/
theorem walker_visible_exactly_chain_witness :
    allOff (.mk none false (.cons (.mk (some (some "display:none")) false .nil)
      (.cons (.mk (some (some "display:none")) false .nil)
        (.cons (.mk (some (some "display:none")) false .nil) .nil)))) = true ∧
    ∀ s ∈ (iterTree (.mk none false (.cons (.mk (some (some "display:none")) false .nil)
        (.cons (.mk (some (some "display:none")) false .nil)
          (.cons (.mk (some (some "display:none")) false .nil) .nil))))).1,
      ∃ p ∈ leafPaths (.mk none false (.cons (.mk (some (some "display:none")) false .nil)
        (.cons (.mk (some (some "display:none")) false .nil)
          (.cons (.mk (some (some "display:none")) false .nil) .nil)))),
        ∀ (q : List Nat) (u : LTree), nodeAt s q = some u →
          visFlag u = onChain q p ∧
          ∀ st, elemOf u = some st →
            st = some (if onChain q p then "display:inline" else "display:none") :=
  ⟨rfl, walker_visible_exactly_chain _ rfl⟩

/-! ### C8: element-absent nodes -/

/-- C8 counterexample: the claim says the visible flag of an element-absent
LayerNode is never set to true, but the walk's entry step
(`self.visible = True`) sets it on every node: walking a synthetic root with
no element yields a state whose flag is `true`. -/
theorem synthetic_root_flag_set_true :
    (iterTree (.mk none false .nil)).1 = [LTree.mk none true .nil] := rfl

/-- C8 amended: toggling the visible flag of a LayerNode whose element
reference is absent updates only the flag itself and never writes any style
attribute (there is no element to mutate); the walk does set such a node's
flag to true on entry like any other node's. -/
theorem setVisible_absent_element (b v : Bool) (ch : LTreeList) :
    setVisible (.mk none b ch) v = .mk none v ch := by
  cases v <;> rfl

end SvgPresent
